import Mathlib

/-!
Shallow embedding of the Markov chain text generator (src/include/chain.hh,
src/src/chain.cc) and verification of its specification.

The C++ class `markov::chain` publicly inherits from
`std::map<std::deque<std::string>, std::vector<std::string>>`.  We model:

* a map key (C++ `chain::prefix`, a `std::deque<std::string>`) as `List String`;
* the inherited ordered map as an association list sorted by the map's
  key order (`std::map` keeps keys sorted by `operator<`, which is
  lexicographic comparison of the deques);
* the data members `current_prefix` and `prefix_len` as fields `cursor`
  and `plen` of a `Chain` structure (the source's names are avoided only
  for lexical reasons; doc comments of each operation cite the source);
* an output stream as the `String` of all characters written to it;
* an input stream as the `String` of its entire contents;
* the process-wide pseudo-random source as an explicit list of the
  successive values returned by `random()`, one consumed per call
  (seeding with `srandom` only affects which values `random()` yields,
  which is already abstracted by that list).
-/

namespace Markov

/-- Model of `chain::prefix`, i.e. `std::deque<std::string>` (chain.hh line 50). -/
abbrev Pfx := List String

/-- Lexicographic comparison of lists from a comparison of elements: the
shape of `std::lexicographical_compare`. -/
def lexLt {α : Type} (lt : α → α → Bool) : List α → List α → Bool
  | [], [] => false
  | [], _ :: _ => true
  | _ :: _, [] => false
  | a :: as, b :: bs => if lt a b then true else if lt b a then false else lexLt lt as bs

/-- Comparison of two characters, as C++ compares the characters of a
string. -/
def charLt (a b : Char) : Bool := decide (a < b)

/-- The `operator<` of `std::string`: lexicographic comparison of the
characters. -/
def strLt (a b : String) : Bool := lexLt charLt a.data b.data

/-- The key order of the inherited `std::map`: `operator<` on
`std::deque<std::string>`, i.e. lexicographic comparison of the element
strings. -/
def keyLt (a b : Pfx) : Bool := lexLt strLt a b

/-- Lookup in the map: `std::map::find` (used by `chain::isValidPrefix`,
chain.cc lines 191-198) returns the entry for the key, if present. -/
def mapFind : List (Pfx × List String) → Pfx → Option (List String)
  | [], _ => none
  | (k, v) :: m, q => if k = q then some v else mapFind m q

/-- Model of `(*this)[q].push_back(w)`: `std::map::operator[]` creates the
entry (with an empty vector) at its sorted position if absent, then the
new element is appended to the entry's vector. -/
def mapAppend : List (Pfx × List String) → Pfx → String → List (Pfx × List String)
  | [], q, w => [(q, [w])]
  | (k, v) :: m, q, w =>
    if k = q then (k, v ++ [w]) :: m
    else if keyLt q k then (q, [w]) :: (k, v) :: m
    else (k, v) :: mapAppend m q w

/-- Model of `markov::chain` (chain.hh lines 42-226): the inherited map,
the `current_prefix` member (here `cursor`) and the `prefix_len` member
(here `plen`). -/
structure Chain where
  map : List (Pfx × List String)
  cursor : Pfx
  plen : Nat
deriving DecidableEq

/-- The constructor `chain(std::size_t len = 2)` (chain.hh lines 57-60):
empty map, empty current prefix, given length. -/
def mkChain (len : Nat) : Chain := ⟨[], [], len⟩

/-- Model of `chain::add(const std::string&)` (chain.cc lines 46-52):
if `current_prefix` holds exactly `prefix_len` tokens, push the token
onto the successor vector keyed by `current_prefix` and pop the front of
`current_prefix`; in all cases push the token onto the back of
`current_prefix`. -/
def Chain.add (c : Chain) (s : String) : Chain :=
  if c.cursor.length = c.plen then
    { map := mapAppend c.map c.cursor s, cursor := c.cursor.tail ++ [s], plen := c.plen }
  else
    { c with cursor := c.cursor ++ [s] }

/-- Feeding a list of tokens through `chain::add(const std::string&)` in
order, as the loop of `chain::add(std::istream&, bool)` (chain.cc lines
58-59) does after whitespace tokenization by `operator>>`. -/
def Chain.addList (c : Chain) (ts : List String) : Chain :=
  ts.foldl Chain.add c

/-- Model of `chain::add(std::istream&, bool)` (chain.cc lines 54-60) on
the already-tokenized stream: optionally clear `current_prefix`, then add
each token. -/
def Chain.addStream (c : Chain) (ts : List String) (resetpfx : Bool) : Chain :=
  Chain.addList (if resetpfx then { c with cursor := [] } else c) ts

/-- Model of `chain::isValidPrefix` (chain.cc lines 191-198): the key is
present in the map. -/
def Chain.isValidPfx (c : Chain) (p : Pfx) : Bool :=
  (mapFind c.map p).isSome

/-- Result of `chain::randomPrefix` (chain.cc lines 176-189).  The
constructor `undef` models the case `this->size() == 0`, in which the
source computes `random() % this->size()`, an integer modulo by zero:
undefined behavior in C++ (in practice a SIGFPE).  The source contains
no guard for it.  There is no error constructor because the source has
no error path. -/
inductive RandRes where
  | undef : RandRes
  | ok : Pfx → RandRes
deriving DecidableEq

/-- Model of `chain::randomPrefix` (chain.cc lines 176-189) with the
value of the `random()` call made explicit: index `r % size` into the
map's enumeration order (the source walks `j` from `0` while
`j <= i`, so `pref` ends as the key at position `i = r % size`).  On an
empty map the modulo is by zero: `undef` (undefined behavior, unguarded). -/
def Chain.randPfx (c : Chain) (r : Nat) : RandRes :=
  if c.map.length = 0 then RandRes.undef
  else RandRes.ok ((c.map.getD (r % c.map.length) ([], [])).fst)

/-- The generation loop of `chain::generate` (chain.cc lines 75-88), one
recursive step per iteration of `for (; i < nwords; i++)`, with the
remaining iteration count as first argument.  Each step: fetch the
successor vector of `current_prefix` (via `operator[]`; if it is empty
the source's `random() % suf.size()` is a modulo by zero, undefined
behavior, modeled as `none`), pick the word at index `r % size` for the
next `random()` value `r`, emit it, and either slide `current_prefix`
(drop front, append the word) when the slid key is valid, or break. -/
def genLoop : Nat → Chain → List Nat → Option (List String × Chain)
  | 0, c, _ => some ([], c)
  | Nat.succ k, c, rands =>
    let suf := (mapFind c.map c.cursor).getD []
    if suf.length = 0 then none
    else
      let w := suf.getD (rands.headD 0 % suf.length) ""
      let cand := c.cursor.tail ++ [w]
      if (mapFind c.map cand).isSome then
        match genLoop k { c with cursor := cand } rands.tail with
        | none => none
        | some (ws, c2) => some (w :: ws, c2)
      else
        some ([w], c)

/-- The body of `chain::generate` after the starting cursor has been
chosen (chain.cc lines 71-90): emit the first `prefix_len` tokens of the
cursor (`current_prefix.at(i)` for `i < prefix_len`; `at` throws, modeled
`none`, if the cursor is shorter), then run the loop for the remaining
`nwords - prefix_len` iterations.  The result is the list of emitted
words in order and the final chain state; the character stream actually
written is `render` of that word list. -/
def generateCore (c : Chain) (nwords : Nat) (cur : Pfx) (rs : List Nat) :
    Option (List String × Chain) :=
  if c.plen ≤ cur.length then
    match genLoop (nwords - c.plen) { c with cursor := cur } rs with
    | none => none
    | some (ws, c2) => some (cur.take c.plen ++ ws, c2)
  else none

/-- Model of `chain::generate(std::ostream&, std::size_t, prefix)`
(chain.cc lines 62-91): if the given starting prefix is a valid key it
becomes `current_prefix`, else `randomPrefix()` is drawn (consuming one
`random()` value); then the core loop runs.  `none` propagates the
undefined behavior of `randomPrefix` on an empty map. -/
def Chain.generate (c : Chain) (nwords : Nat) (p : Pfx) (rands : List Nat) :
    Option (List String × Chain) :=
  if c.isValidPfx p then
    generateCore c nwords p rands
  else
    match c.randPfx (rands.headD 0) with
    | RandRes.undef => none
    | RandRes.ok q => generateCore c nwords q rands.tail

/-- Model of `chain::generate(std::ostream&, std::size_t)` (chain.cc
lines 93-96): draw `randomPrefix()` (one `random()` value), then call
the three-argument form with it. -/
def Chain.generateRand (c : Chain) (nwords : Nat) (rands : List Nat) :
    Option (List String × Chain) :=
  match c.randPfx (rands.headD 0) with
  | RandRes.undef => none
  | RandRes.ok start => c.generate nwords start rands.tail

/-- Concatenation of a list of strings in order, as successive stream
writes produce. -/
def strConcat : List String → String
  | [] => ""
  | s :: l => s ++ strConcat l

/-- The character stream `chain::generate` writes for an emitted word
list: every word is written followed by a single space (chain.cc lines
73 and 78), and the stream ends with `std::endl` (line 90). -/
def render (ws : List String) : String :=
  strConcat (ws.map (fun w => w ++ " ")) ++ "\n"

/-- The prefix part of one output line of `chain::write` (chain.cc lines
103-104): each prefix token followed by a space. -/
def pfxPart : List String → String
  | [] => ""
  | t :: ts => t ++ " " ++ pfxPart ts

/-- The successor part of one output line of `chain::write` (chain.cc
lines 107-114): the words separated by single spaces, ended by
`std::endl`; for an empty vector the loop body never runs, so nothing
(not even the line break) is written. -/
def sufPart : List String → String
  | [] => ""
  | [w] => w ++ "\n"
  | w :: ws => w ++ " " ++ sufPart ws

/-- Model of `chain::write` (chain.cc lines 98-116): for each map entry
in enumeration order, the prefix part, then the literal colon-space
(the source writes `": "`; the space before the colon is the trailing
space of the prefix part), then the successor part. -/
def Chain.write (c : Chain) : String :=
  strConcat (c.map.map (fun e => pfxPart e.fst ++ ": " ++ sufPart e.snd))

/-- Position of the first occurrence of the three-character separator
space-colon-space in a character list: `line.find(" : ")` of chain.cc
line 132 (`std::string::find` needs the full pattern to match, so
nothing matches within the last two characters). -/
def findSep : List Char → Option Nat
  | [] => none
  | c :: t =>
    if (c :: t).take 3 = ([' ', ':', ' '] : List Char) then some 0
    else (findSep t).map (fun n => n + 1)

/-- Splitting a character list at every occurrence of a character: the
do-while loops of `chain::parseLine` (chain.cc lines 138-143 and
152-157), which cut at each single space and always produce at least one
(possibly empty) piece. -/
def splitOnChar (sep : Char) : List Char → List (List Char)
  | [] => [[]]
  | c :: t =>
    if c = sep then [] :: splitOnChar sep t
    else
      match splitOnChar sep t with
      | [] => [[c]]
      | h :: r => (c :: h) :: r

/-- Model of `chain::parseLine` (chain.cc lines 130-163).  Find the
first space-colon-space; if absent the line is skipped (returns the
chain unchanged and false).  Split the part before it at single spaces
into the prefix tokens; if `prefix_len` is 0 it becomes that token
count.  If the token count matches `prefix_len`: set `current_prefix`,
split the part after the separator at single spaces, append each piece
to the entry keyed by the prefix, and report true.  Otherwise the line
is skipped. -/
def Chain.parseLine (c : Chain) (line : String) : Chain × Bool :=
  match findSep line.toList with
  | none => (c, false)
  | some i =>
    let temp : List String := (splitOnChar ' ' (line.toList.take i)).map String.mk
    let pl := if c.plen = 0 then temp.length else c.plen
    if temp.length = pl then
      let sufs : List String := (splitOnChar ' ' (line.toList.drop (i + 3))).map String.mk
      ({ map := sufs.foldl (fun m w => mapAppend m temp w) c.map,
         cursor := temp, plen := pl }, true)
    else
      ({ c with plen := pl }, false)

/-- The lines `chain::read` (chain.cc lines 118-128) actually parses: the
loop calls `std::getline` while the stream is good and parses the line
only if the stream is still good afterwards, so exactly the segments
whose terminating newline was consumed are parsed; a final segment ended
by end-of-stream instead of a newline is dropped. -/
def completedLines (s : String) : List String :=
  ((splitOnChar '\n' s.toList).dropLast).map String.mk

/-- Model of `chain::read` (chain.cc lines 118-128): clear the map, the
current prefix and the prefix length (lines 119-121; the prior state of
the instance is discarded, hence the ignored first argument), then parse
each completed line in order. -/
def Chain.read (_c : Chain) (s : String) : Chain :=
  (completedLines s).foldl (fun ch l => (Chain.parseLine ch l).fst) ⟨[], [], 0⟩

/-- Model of the protected setter `chain::prefixLength(std::size_t)`
(chain.cc lines 204-209): clears the map and the current prefix, then
sets the length. -/
def Chain.setPlen (_c : Chain) (len : Nat) : Chain :=
  { map := [], cursor := [], plen := len }

/-- Model of the protected setter `chain::currentPrefix(prefix)`
(chain.cc lines 170-174): sets `current_prefix` only if the argument is
a valid key. -/
def Chain.setCursor (c : Chain) (p : Pfx) : Chain :=
  if c.isValidPfx p then { c with cursor := p } else c

/-! Specification-side definitions, written from the wording of the
specification for comparison with the source-derived functions above. -/

/-- All length `L` windows found by sliding a step-1 window across a
token stream (the count the specification compares entry counts to). -/
def windows (L : Nat) (ts : List String) : List Pfx :=
  (List.range (ts.length + 1 - L)).map (fun i => (ts.drop i).take L)

/-- Tokens joined by single spaces (used to phrase the specification's
line format). -/
def joinSp : List String → String
  | [] => ""
  | [t] => t
  | t :: ts => t ++ " " ++ joinSp ts

/-- Modelled from the spec: the line format of the serialization,
"prefix tokens space-separated, then the literal separator space colon
space, then successor tokens space-separated, terminated by a line
break". -/
def specLine (p : Pfx) (suf : List String) : String :=
  joinSp p ++ " : " ++ joinSp suf ++ "\n"

/-- A token free of spaces and newlines (the specification's format
assumption: tokens never contain the separator sequence or embedded
newlines). -/
def cleanStr (t : String) : Prop :=
  ∀ ch ∈ t.data, ch ≠ ' ' ∧ ch ≠ '\n'

/-- The state invariant of the data model: every key has length exactly
`prefix_len`, `current_prefix` never exceeds `prefix_len` in length, and
no entry has an empty successor list. -/
def WF (c : Chain) : Prop :=
  (∀ e ∈ c.map, e.fst.length = c.plen ∧ e.snd ≠ []) ∧ c.cursor.length ≤ c.plen

/-- The map's keys are strictly sorted in the key order, as `std::map`
enumeration guarantees. -/
def sortedKeys (m : List (Pfx × List String)) : Prop :=
  List.Pairwise (fun a b => keyLt a.fst b.fst = true) m

instance (c : Chain) : Decidable (WF c) :=
  decidable_of_iff
    ((∀ e ∈ c.map, e.fst.length = c.plen ∧ e.snd ≠ []) ∧ c.cursor.length ≤ c.plen)
    Iff.rfl

instance (t : String) : Decidable (cleanStr t) :=
  decidable_of_iff (∀ ch ∈ t.data, ch ≠ ' ' ∧ ch ≠ '\n') Iff.rfl

instance (m : List (Pfx × List String)) : Decidable (sortedKeys m) := by
  unfold sortedKeys
  infer_instance

/-! Order properties of the map's key comparison. -/

theorem lexLt_irrefl {α : Type} (lt : α → α → Bool) (h : ∀ a, lt a a = false) :
    ∀ l, lexLt lt l l = false := by
  intro l
  induction l with
  | nil => rfl
  | cons a as ih => simp [lexLt, h a, ih]

theorem lexLt_asymm {α : Type} (lt : α → α → Bool)
    (h : ∀ a b, lt a b = true → lt b a = false) :
    ∀ p q, lexLt lt p q = true → lexLt lt q p = false := by
  intro p
  induction p with
  | nil =>
    intro q hq
    cases q with
    | nil => simp [lexLt] at hq
    | cons b bs => rfl
  | cons a as ih =>
    intro q hq
    cases q with
    | nil => simp [lexLt] at hq
    | cons b bs =>
      by_cases h1 : lt a b = true
      · simp [lexLt, h1, h a b h1]
      · by_cases h2 : lt b a = true
        · simp [lexLt, h1, h2] at hq
        · have h1f : lt a b = false := by simpa using h1
          have h2f : lt b a = false := by simpa using h2
          simp only [lexLt, h1f, h2f, Bool.false_eq_true, if_false] at hq ⊢
          exact ih bs hq

theorem lexLt_conn {α : Type} (lt : α → α → Bool)
    (h : ∀ a b, lt a b = false → lt b a = false → a = b) :
    ∀ p q, lexLt lt p q = false → lexLt lt q p = false → p = q := by
  intro p
  induction p with
  | nil =>
    intro q h1 h2
    cases q with
    | nil => rfl
    | cons b bs => simp [lexLt] at h1
  | cons a as ih =>
    intro q h1 h2
    cases q with
    | nil => simp [lexLt] at h2
    | cons b bs =>
      by_cases hab : lt a b = true
      · simp [lexLt, hab] at h1
      · by_cases hba : lt b a = true
        · simp [lexLt, hba] at h2
        · have habf : lt a b = false := by simpa using hab
          have hbaf : lt b a = false := by simpa using hba
          have he : a = b := h a b habf hbaf
          subst he
          simp only [lexLt, habf, Bool.false_eq_true, if_false] at h1 h2
          rw [ih bs h1 h2]

theorem lexLt_trans {α : Type} (lt : α → α → Bool)
    (htr : ∀ a b c, lt a b = true → lt b c = true → lt a c = true)
    (hconn : ∀ a b, lt a b = false → lt b a = false → a = b) :
    ∀ p q r, lexLt lt p q = true → lexLt lt q r = true → lexLt lt p r = true := by
  intro p
  induction p with
  | nil =>
    intro q r h1 h2
    cases r with
    | nil =>
      cases q with
      | nil => simp [lexLt] at h1
      | cons b bs => simp [lexLt] at h2
    | cons c cs => rfl
  | cons a as ih =>
    intro q r h1 h2
    cases q with
    | nil => simp [lexLt] at h1
    | cons b bs =>
      cases r with
      | nil => simp [lexLt] at h2
      | cons c cs =>
        by_cases hab : lt a b = true
        · by_cases hbc : lt b c = true
          · simp [lexLt, htr a b c hab hbc]
          · by_cases hcb : lt c b = true
            · simp [lexLt, hbc, hcb] at h2
            · have he : b = c := hconn b c (by simpa using hbc) (by simpa using hcb)
              subst he
              simp [lexLt, hab]
        · by_cases hba : lt b a = true
          · simp [lexLt, hab, hba] at h1
          · have he : a = b := hconn a b (by simpa using hab) (by simpa using hba)
            subst he
            by_cases hac : lt a c = true
            · simp [lexLt, hac]
            · by_cases hca : lt c a = true
              · simp [lexLt, hac, hca] at h2
              · have haaf : lt a a = false := by simpa using hab
                have hacf : lt a c = false := by simpa using hac
                have hcaf : lt c a = false := by simpa using hca
                simp only [lexLt, haaf, hacf, hcaf, Bool.false_eq_true, if_false]
                  at h1 h2 ⊢
                exact ih bs cs h1 h2

theorem charLt_irrefl (a : Char) : charLt a a = false := by
  simp [charLt]

theorem charLt_asymm (a b : Char) (h : charLt a b = true) : charLt b a = false := by
  simp only [charLt, decide_eq_true_eq] at h
  simp only [charLt, decide_eq_false_iff_not]
  exact asymm h

theorem charLt_conn (a b : Char) (h1 : charLt a b = false) (h2 : charLt b a = false) :
    a = b := by
  simp only [charLt, decide_eq_false_iff_not] at h1 h2
  exact le_antisymm (le_of_not_lt h2) (le_of_not_lt h1)

theorem charLt_trans (a b c : Char) (h1 : charLt a b = true) (h2 : charLt b c = true) :
    charLt a c = true := by
  simp only [charLt, decide_eq_true_eq] at h1 h2 ⊢
  exact lt_trans h1 h2

theorem strLt_irrefl (a : String) : strLt a a = false :=
  lexLt_irrefl charLt charLt_irrefl a.data

theorem strLt_asymm (a b : String) (h : strLt a b = true) : strLt b a = false :=
  lexLt_asymm charLt charLt_asymm a.data b.data h

theorem strLt_conn (a b : String) (h1 : strLt a b = false) (h2 : strLt b a = false) :
    a = b := by
  have h3 := lexLt_conn charLt charLt_conn a.data b.data h1 h2
  cases a
  cases b
  exact congrArg String.mk h3

theorem strLt_trans (a b c : String) (h1 : strLt a b = true) (h2 : strLt b c = true) :
    strLt a c = true :=
  lexLt_trans charLt charLt_trans charLt_conn a.data b.data c.data h1 h2

theorem keyLt_irrefl (p : Pfx) : keyLt p p = false :=
  lexLt_irrefl strLt strLt_irrefl p

theorem keyLt_asymm {p q : Pfx} (h : keyLt p q = true) : keyLt q p = false :=
  lexLt_asymm strLt strLt_asymm p q h

theorem keyLt_conn {p q : Pfx} (h1 : keyLt p q = false) (h2 : keyLt q p = false) :
    p = q :=
  lexLt_conn strLt strLt_conn p q h1 h2

theorem keyLt_trans {p q r : Pfx} (h1 : keyLt p q = true) (h2 : keyLt q r = true) :
    keyLt p r = true :=
  lexLt_trans strLt strLt_trans strLt_conn p q r h1 h2


/-! Lookup and insertion lemmas for the embedded map. -/

theorem mapFind_isSome_iff (m : List (Pfx × List String)) (k : Pfx) :
    (mapFind m k).isSome = true ↔ k ∈ m.map Prod.fst := by
  induction m with
  | nil => simp [mapFind]
  | cons e m ih =>
    obtain ⟨k1, v1⟩ := e
    by_cases hk : k1 = k
    · subst hk; simp [mapFind]
    · simp [mapFind, hk, ih, Ne.symm hk]

theorem mapFind_eq_none (m : List (Pfx × List String)) (q : Pfx)
    (h : ∀ e ∈ m, e.fst ≠ q) : mapFind m q = none := by
  induction m with
  | nil => rfl
  | cons e m ih =>
    obtain ⟨k, v⟩ := e
    have hk : k ≠ q := h (k, v) (by simp)
    simp only [mapFind, hk, if_false]
    exact ih (fun e he => h e (by simp [he]))

theorem mem_mapAppend {m : List (Pfx × List String)} {q : Pfx} {w : String}
    {e : Pfx × List String} (he : e ∈ mapAppend m q w) :
    e ∈ m ∨ (e.fst = q ∧ e.snd ≠ []) := by
  induction m with
  | nil =>
    simp [mapAppend] at he
    subst he; simp
  | cons e1 m ih =>
    obtain ⟨k, v⟩ := e1
    by_cases hk : k = q
    · subst hk
      simp only [mapAppend, if_pos rfl] at he
      rcases List.mem_cons.mp he with h | h
      · subst h; simp
      · exact Or.inl (List.mem_cons_of_mem _ h)
    · by_cases hlt : keyLt q k = true
      · simp only [mapAppend, hk, if_false, hlt, if_true] at he
        rcases List.mem_cons.mp he with h | h
        · subst h; simp
        · exact Or.inl h
      · simp only [mapAppend, hk, if_false, hlt] at he
        rcases List.mem_cons.mp he with h | h
        · subst h; simp
        · rcases ih h with h2 | h2
          · exact Or.inl (List.mem_cons_of_mem _ h2)
          · exact Or.inr h2

theorem keyLt_of_ne {p q : Pfx} (hne : p ≠ q) (h : keyLt q p = false) :
    keyLt p q = true := by
  cases h3 : keyLt p q with
  | true => rfl
  | false => exact absurd (keyLt_conn h3 h) hne

theorem sortedKeys_mapAppend {m : List (Pfx × List String)} {q : Pfx} {w : String}
    (hs : sortedKeys m) : sortedKeys (mapAppend m q w) := by
  induction m with
  | nil =>
    simp only [mapAppend, sortedKeys]
    exact List.pairwise_singleton _ _
  | cons e1 m ih =>
    obtain ⟨k, v⟩ := e1
    simp only [sortedKeys, List.pairwise_cons] at hs
    obtain ⟨hd, hs'⟩ := hs
    simp only [mapAppend]
    by_cases hk : k = q
    · rw [if_pos hk]
      simp only [sortedKeys, List.pairwise_cons]
      exact ⟨hd, hs'⟩
    · rw [if_neg hk]
      by_cases hlt : keyLt q k = true
      · rw [if_pos hlt]
        simp only [sortedKeys, List.pairwise_cons]
        refine ⟨?_, hd, hs'⟩
        intro e he
        rcases List.mem_cons.mp he with h | h
        · rw [h]; exact hlt
        · exact keyLt_trans hlt (hd e h)
      · rw [if_neg hlt]
        simp only [sortedKeys, List.pairwise_cons]
        refine ⟨?_, ?_⟩
        · intro e he
          rcases mem_mapAppend he with h | h
          · exact hd e h
          · rw [h.1]
            exact keyLt_of_ne hk (by simpa using hlt)
        · have := ih hs'
          simpa [sortedKeys] using this

theorem mapFind_mapAppend_self {m : List (Pfx × List String)} (q : Pfx) (w : String)
    (hs : sortedKeys m) :
    mapFind (mapAppend m q w) q = some ((mapFind m q).getD [] ++ [w]) := by
  induction m with
  | nil => simp [mapAppend, mapFind]
  | cons e1 m ih =>
    obtain ⟨k, v⟩ := e1
    rw [sortedKeys, List.pairwise_cons] at hs
    obtain ⟨hd, hs'⟩ := hs
    by_cases hk : k = q
    · subst hk
      simp [mapAppend, mapFind]
    · by_cases hlt : keyLt q k = true
      · simp only [mapAppend, hk, if_false, hlt, if_true]
        have hnone : mapFind ((k, v) :: m) q = none := by
          refine mapFind_eq_none _ _ ?_
          intro e he
          rcases List.mem_cons.mp he with h | h
          · subst h; exact hk
          · intro hq
            have := hd e h
            rw [hq] at this
            exact absurd hlt (by rw [keyLt_asymm this]; simp)
        rw [hnone]
        simp [mapFind]
      · simp only [mapAppend, hk, if_false, hlt]
        simp only [mapFind, hk, if_false]
        exact ih hs'

theorem mapFind_mapAppend_ne {m : List (Pfx × List String)} {q k : Pfx} (w : String)
    (hk : k ≠ q) : mapFind (mapAppend m q w) k = mapFind m k := by
  induction m with
  | nil => simp [mapAppend, mapFind, Ne.symm hk]
  | cons e1 m ih =>
    obtain ⟨k1, v1⟩ := e1
    by_cases h1 : k1 = q
    · subst h1
      have : k1 ≠ k := Ne.symm hk
      simp [mapAppend, mapFind, this]
    · by_cases hlt : keyLt q k1 = true
      · simp [mapAppend, h1, hlt, mapFind, Ne.symm hk]
      · by_cases h2 : k1 = k
        · subst h2
          simp [mapAppend, h1, hlt, mapFind]
        · simp [mapAppend, h1, hlt, mapFind, h2, ih]

theorem mapFind_mem {m : List (Pfx × List String)} {k : Pfx} {v : List String}
    (h : mapFind m k = some v) : (k, v) ∈ m := by
  induction m with
  | nil => simp [mapFind] at h
  | cons e1 m ih =>
    obtain ⟨k1, v1⟩ := e1
    by_cases h1 : k1 = k
    · subst h1
      simp only [mapFind, if_pos rfl] at h
      injection h with h
      subst h
      exact List.mem_cons_self _ _
    · simp only [mapFind, if_neg h1] at h
      exact List.mem_cons_of_mem _ (ih h)

theorem mapAppend_last {m : List (Pfx × List String)} {q : Pfx} (w : String)
    (h : ∀ e ∈ m, e.fst ≠ q ∧ keyLt q e.fst = false) :
    mapAppend m q w = m ++ [(q, [w])] := by
  induction m with
  | nil => rfl
  | cons e1 m ih =>
    obtain ⟨k, v⟩ := e1
    have hk := h (k, v) (by simp)
    simp only [mapAppend]
    rw [if_neg hk.1, if_neg (by simp [hk.2]), ih (fun e he => h e (by simp [he]))]
    simp

theorem mapAppend_snoc_self {m : List (Pfx × List String)} {q : Pfx} (w : String)
    (v : List String) (h : ∀ e ∈ m, e.fst ≠ q ∧ keyLt q e.fst = false) :
    mapAppend (m ++ [(q, v)]) q w = m ++ [(q, v ++ [w])] := by
  induction m with
  | nil => simp [mapAppend]
  | cons e1 m ih =>
    obtain ⟨k, v1⟩ := e1
    have hk := h (k, v1) (by simp)
    simp only [List.cons_append, mapAppend]
    rw [if_neg hk.1, if_neg (by simp [hk.2]),
        show List.append m [(q, v)] = m ++ [(q, v)] from rfl,
        ih (fun e he => h e (by simp [he]))]

theorem foldAppend_from {q : Pfx} (ws : List String) (m : List (Pfx × List String))
    (v : List String) (h : ∀ e ∈ m, e.fst ≠ q ∧ keyLt q e.fst = false) :
    ws.foldl (fun m2 w => mapAppend m2 q w) (m ++ [(q, v)]) = m ++ [(q, v ++ ws)] := by
  induction ws generalizing v with
  | nil => simp
  | cons w ws ih =>
    simp only [List.foldl_cons]
    rw [mapAppend_snoc_self w v h, ih (v ++ [w])]
    simp

theorem foldAppend_new {q : Pfx} (ws : List String) (m : List (Pfx × List String))
    (hw : ws ≠ []) (h : ∀ e ∈ m, e.fst ≠ q ∧ keyLt q e.fst = false) :
    ws.foldl (fun m2 w => mapAppend m2 q w) m = m ++ [(q, ws)] := by
  cases ws with
  | nil => exact absurd rfl hw
  | cons w ws =>
    simp only [List.foldl_cons]
    rw [mapAppend_last w h, foldAppend_from ws m [w] h]
    simp

theorem mapFind_foldAppend_ne {q k : Pfx} (hk : k ≠ q) (ws : List String)
    (m : List (Pfx × List String)) :
    mapFind (ws.foldl (fun m2 w => mapAppend m2 q w) m) k = mapFind m k := by
  induction ws generalizing m with
  | nil => rfl
  | cons w ws ih =>
    simp only [List.foldl_cons]
    rw [ih, mapFind_mapAppend_ne w hk]

theorem mapFind_foldAppend_self (q : Pfx) (ws : List String) :
    ∀ m : List (Pfx × List String), sortedKeys m → ws ≠ [] →
      mapFind (ws.foldl (fun m2 w => mapAppend m2 q w) m) q =
        some ((mapFind m q).getD [] ++ ws) := by
  induction ws with
  | nil => exact fun m _ hw => absurd rfl hw
  | cons w ws ih =>
    intro m hs _
    by_cases hws : ws = []
    · subst hws
      simp only [List.foldl_cons, List.foldl_nil]
      exact mapFind_mapAppend_self q w hs
    · simp only [List.foldl_cons]
      rw [ih (mapAppend m q w) (sortedKeys_mapAppend hs) hws,
          mapFind_mapAppend_self q w hs]
      simp

/-! Lemmas about character-list splitting. -/

theorem splitOnChar_ne_nil (sep : Char) (l : List Char) : splitOnChar sep l ≠ [] := by
  induction l with
  | nil => simp [splitOnChar]
  | cons c t _ =>
    simp only [splitOnChar]
    by_cases h : c = sep
    · rw [if_pos h]; simp
    · rw [if_neg h]
      cases hs : splitOnChar sep t with
      | nil => simp
      | cons hh r => simp

theorem splitOnChar_no_sep (sep : Char) (l : List Char) (h : ∀ c ∈ l, c ≠ sep) :
    splitOnChar sep l = [l] := by
  induction l with
  | nil => rfl
  | cons c t ih =>
    have hc : c ≠ sep := h c (by simp)
    simp only [splitOnChar, if_neg hc]
    rw [ih (fun x hx => h x (by simp [hx]))]

theorem splitOnChar_append_sep (sep : Char) (xs rest : List Char)
    (h : ∀ c ∈ xs, c ≠ sep) :
    splitOnChar sep (xs ++ sep :: rest) = xs :: splitOnChar sep rest := by
  induction xs with
  | nil => simp [splitOnChar]
  | cons c t ih =>
    have hc : c ≠ sep := h c (by simp)
    simp only [List.cons_append, splitOnChar, if_neg hc]
    rw [show List.append t (sep :: rest) = t ++ sep :: rest from rfl,
        ih (fun x hx => h x (by simp [hx]))]

theorem dropLast_splitOnChar_append (sep : Char) (xs ys : List Char)
    (h : ∀ c ∈ ys, c ≠ sep) :
    (splitOnChar sep (xs ++ ys)).dropLast = (splitOnChar sep xs).dropLast := by
  induction xs with
  | nil =>
    simp only [List.nil_append]
    rw [splitOnChar_no_sep sep ys h]
    simp [splitOnChar]
  | cons c t ih =>
    simp only [List.cons_append, splitOnChar]
    by_cases hc : c = sep
    · rw [if_pos hc, if_pos hc]
      cases hs1 : splitOnChar sep (t ++ ys) with
      | nil => exact absurd hs1 (splitOnChar_ne_nil sep _)
      | cons a1 r1 =>
        cases hs2 : splitOnChar sep t with
        | nil => exact absurd hs2 (splitOnChar_ne_nil sep _)
        | cons a2 r2 =>
          have ih2 := ih
          rw [hs1, hs2] at ih2
          simpa [List.dropLast] using ih2
    · rw [if_neg hc, if_neg hc]
      cases hs1 : splitOnChar sep (t ++ ys) with
      | nil => exact absurd hs1 (splitOnChar_ne_nil sep _)
      | cons a1 r1 =>
        cases hs2 : splitOnChar sep t with
        | nil => exact absurd hs2 (splitOnChar_ne_nil sep _)
        | cons a2 r2 =>
          have ih2 := ih
          rw [hs1, hs2] at ih2
          cases r1 with
          | nil =>
            cases r2 with
            | nil => rfl
            | cons b2 s2 => simp [List.dropLast] at ih2
          | cons b1 s1 =>
            cases r2 with
            | nil => simp [List.dropLast] at ih2
            | cons b2 s2 =>
              simp only [List.dropLast] at ih2 ⊢
              injection ih2 with h1 h2
              rw [h1, h2]

theorem toList_append (s t : String) : (s ++ t).toList = s.toList ++ t.toList := by
  cases s
  cases t
  rfl

/-! Lemmas about the generation loop and random key selection. -/

theorem randPfx_ok {c : Chain} {r : Nat} {q : Pfx} (h : c.randPfx r = RandRes.ok q) :
    q ∈ c.map.map Prod.fst := by
  unfold Chain.randPfx at h
  split at h
  · exact RandRes.noConfusion h
  case isFalse h0 =>
    injection h with h
    subst h
    have hlt : r % c.map.length < c.map.length := Nat.mod_lt _ (Nat.pos_of_ne_zero h0)
    rw [List.getD_eq_getElem _ _ hlt]
    exact List.mem_map_of_mem Prod.fst (List.getElem_mem _)

theorem randPfx_ok_of_ne {c : Chain} (r : Nat) (h : c.map ≠ []) :
    ∃ q, c.randPfx r = RandRes.ok q := by
  unfold Chain.randPfx
  rw [if_neg (fun hh => h (List.length_eq_zero.mp hh))]
  exact ⟨_, rfl⟩

theorem isValidPfx_of_mem {c : Chain} {q : Pfx} (h : q ∈ c.map.map Prod.fst) :
    c.isValidPfx q = true := by
  unfold Chain.isValidPfx
  exact (mapFind_isSome_iff _ _).mpr h

theorem genLoop_some :
    ∀ (k : Nat) (c : Chain) (rands : List Nat) (ws : List String) (c2 : Chain),
      genLoop k c rands = some (ws, c2) →
      c2.map = c.map ∧ c2.plen = c.plen ∧ ws.length ≤ k ∧
        (c2.cursor = c.cursor ∨ (mapFind c.map c2.cursor).isSome = true) := by
  intro k
  induction k with
  | zero =>
    intro c rands ws c2 h
    simp only [genLoop, Option.some.injEq, Prod.mk.injEq] at h
    obtain ⟨h1, h2⟩ := h
    subst h1
    subst h2
    simp
  | succ k ih =>
    intro c rands ws c2 h
    simp only [genLoop] at h
    split at h
    · exact absurd h (by simp)
    case isFalse hsuf =>
      split at h
      case isTrue hval =>
        split at h
        · exact absurd h (by simp)
        case h_2 ws2 c3 heq =>
          simp only [Option.some.injEq, Prod.mk.injEq] at h
          obtain ⟨h1, h2⟩ := h
          subst h1
          subst h2
          have hi := ih _ _ _ _ heq
          refine ⟨hi.1, hi.2.1, by simpa using Nat.succ_le_succ hi.2.2.1, ?_⟩
          rcases hi.2.2.2 with h3 | h3
          · right
            rw [h3]
            exact hval
          · right
            exact h3
      case isFalse hval =>
        simp only [Option.some.injEq, Prod.mk.injEq] at h
        obtain ⟨h1, h2⟩ := h
        subst h1
        subst h2
        refine ⟨rfl, rfl, ?_, Or.inl rfl⟩
        simp

theorem generateCore_some {c : Chain} {n : Nat} {cur : Pfx} {rs : List Nat}
    {ws : List String} {c2 : Chain} (h : generateCore c n cur rs = some (ws, c2)) :
    c2.map = c.map ∧ c2.plen = c.plen ∧ ws.length ≤ max n c.plen ∧
      (c2.cursor = cur ∨ (mapFind c.map c2.cursor).isSome = true) := by
  unfold generateCore at h
  split at h
  case isTrue hle =>
    split at h
    · exact absurd h (by simp)
    case h_2 ws2 c3 heq =>
      simp only [Option.some.injEq, Prod.mk.injEq] at h
      obtain ⟨h1, h2⟩ := h
      subst h1
      subst h2
      have hi := genLoop_some _ _ _ _ _ heq
      refine ⟨hi.1, hi.2.1, ?_, ?_⟩
      · have hlen : (cur.take c.plen).length = c.plen := by
          rw [List.length_take]
          omega
        have := hi.2.2.1
        rw [List.length_append, hlen]
        omega
      · exact hi.2.2.2
  case isFalse hle => exact absurd h (by simp)

theorem generate_some {c : Chain} {n : Nat} {p : Pfx} {rands : List Nat}
    {ws : List String} {c2 : Chain} (h : c.generate n p rands = some (ws, c2)) :
    c2.map = c.map ∧ c2.plen = c.plen ∧ ws.length ≤ max n c.plen ∧
      (mapFind c.map c2.cursor).isSome = true := by
  unfold Chain.generate at h
  split at h
  case isTrue hv =>
    have hg := generateCore_some h
    refine ⟨hg.1, hg.2.1, hg.2.2.1, ?_⟩
    rcases hg.2.2.2 with h1 | h1
    · rw [h1]
      simpa [Chain.isValidPfx] using hv
    · exact h1
  case isFalse hv =>
    split at h
    · exact absurd h (by simp)
    case h_2 q hq =>
      have hg := generateCore_some h
      have hqm : (mapFind c.map q).isSome = true :=
        (mapFind_isSome_iff _ _).mpr (randPfx_ok hq)
      refine ⟨hg.1, hg.2.1, hg.2.2.1, ?_⟩
      rcases hg.2.2.2 with h1 | h1
      · rw [h1]
        exact hqm
      · exact h1

/-! Claim theorems. -/

/-- C3 (counterexample): on an empty mapping the code does not fail with a
reportable error: randomPrefix reaches the unguarded modulo by zero
(`random() % this->size()` with size 0, undefined behavior, modeled by
RandRes.undef), and generate on an empty chain propagates that undefined
behavior rather than reporting anything. -/
theorem C3_counterexample :
    (mkChain 2).randPfx 0 = RandRes.undef ∧ (mkChain 2).generate 3 ([]) [0] = none :=
  ⟨rfl, rfl⟩

/-- C3 (amended): when the mapping is empty, randomPrefix reaches the
modulo-by-zero of drawing a random index in an empty range — undefined
behavior, with no guard in the code — and both generate forms, which call
it, propagate that undefined behavior; the explicit reportable failure is a
requirement the specification places on reimplementations, not a property
of this code. -/
theorem C3_thm (c : Chain) (r n : Nat) (p : Pfx) (rands : List Nat)
    (h : c.map = []) :
    c.randPfx r = RandRes.undef ∧ c.generate n p rands = none ∧
      c.generateRand n rands = none := by
  refine ⟨?_, ?_, ?_⟩
  · simp [Chain.randPfx, h]
  · simp [Chain.generate, Chain.isValidPfx, Chain.randPfx, mapFind, h]
  · simp [Chain.generateRand, Chain.randPfx, h]

/-- C3 (witness): the amended theorem at the empty chain of prefix length 5. -/
theorem C3_witness :
    (mkChain 5).map = [] ∧
      ((mkChain 5).randPfx 7 = RandRes.undef ∧
        (mkChain 5).generate 4 (["x"]) [1, 2] = none ∧
        (mkChain 5).generateRand 4 [1, 2] = none) :=
  ⟨rfl, C3_thm (mkChain 5) 7 4 (["x"]) [1, 2] rfl⟩

/-- C4 (amended): generate emits at most max(requested word count, prefix
length) words in total — the code always emits all prefix_len cursor words
first, so for word counts below the prefix length it emits more than
requested — and it can emit fewer than the requested count, stopping early
when the slid candidate cursor is not a valid key, as the concrete run with
word count 5 emitting only 3 words shows. -/
theorem C4_thm :
    (∀ (c : Chain) (n : Nat) (p : Pfx) (rands : List Nat) (ws : List String) (c2 : Chain),
        c.generate n p rands = some (ws, c2) → ws.length ≤ max n c.plen) ∧
    ((mkChain 2).addList ["the", "cat", "sat"]).generate 5 (["the", "cat"]) [0] =
      some ((["the", "cat", "sat"]),
            ⟨[((["the", "cat"]), ["sat"])], ["the", "cat"], 2⟩) ∧
    (3 : Nat) < 5 ∧
    ((mkChain 2).addList ["the", "cat", "sat"]).isValidPfx (["cat", "sat"]) = false := by
  refine ⟨?_, by decide, by decide, by decide⟩
  intro c n p rands ws c2 h
  exact (generate_some h).2.2.1

/-- C4 (witness): the bound applied at word count 1 on the concrete trained
chain, where 2 words are emitted and 2 is at most max 1 2. -/
theorem C4_witness :
    (["the", "cat"] : List String).length ≤
      max 1 ((mkChain 2).addList ["the", "cat", "sat"]).plen :=
  C4_thm.1 _ 1 (["the", "cat"]) [0] (["the", "cat"])
    ⟨[((["the", "cat"]), ["sat"])], ["the", "cat"], 2⟩ (by decide)

/-- C4 (counterexample): with word count 1 on a chain of prefix length 2 the
code emits 2 words, more than requested, refuting the at-most-n claim. -/
theorem C4_counterexample :
    (((mkChain 2).addList ["the", "cat", "sat"]).generate 1 (["the", "cat"]) [0]).map
        (fun r => r.fst.length) = some 2 ∧ ¬ ((2 : Nat) ≤ 1) :=
  ⟨by decide, by decide⟩

/-- C5 (amended): training a fresh prefix-length-2 chain on the stream
the, cat, sat yields exactly the one entry mapping the/cat to sat; generate
with starting prefix the/cat and word count 3 emits the words the, cat, sat
and stops because cat/sat is not a valid prefix; the character stream
written is "the cat sat \n" — every word is followed by a space, so the
output is not literally "the cat sat" followed only by the line break. -/
theorem C5_thm :
    ((mkChain 2).addList ["the", "cat", "sat"]).map = [((["the", "cat"]), ["sat"])] ∧
    ((mkChain 2).addList ["the", "cat", "sat"]).generate 3 (["the", "cat"]) [0] =
      some ((["the", "cat", "sat"]),
            ⟨[((["the", "cat"]), ["sat"])], ["the", "cat"], 2⟩) ∧
    render (["the", "cat", "sat"]) = "the cat sat \n" ∧
    ((mkChain 2).addList ["the", "cat", "sat"]).isValidPfx (["cat", "sat"]) = false := by
  refine ⟨by decide, by decide, by decide, by decide⟩

/-- C5 (counterexample): the character stream generate writes in the
concrete scenario is not "the cat sat" followed by the line break (it has a
space before the line break). -/
theorem C5_counterexample :
    (((mkChain 2).addList ["the", "cat", "sat"]).generate 3 (["the", "cat"]) [0]).map
        (fun r => render r.fst) ≠ some ("the cat sat\n") := by decide

/-- C8: on a non-empty chain, generate with an explicit starting prefix that
is not a valid key produces the same result — same output words and same
final chain state — as generate with no explicit prefix, given the same
random value stream: both draw one random valid prefix and then run the
identical walk. -/
theorem C8_thm (c : Chain) (n : Nat) (p : Pfx) (rands : List Nat)
    (hne : c.map ≠ []) (hinv : c.isValidPfx p = false) :
    c.generate n p rands = c.generateRand n rands := by
  obtain ⟨q, hq⟩ := randPfx_ok_of_ne (rands.headD 0) hne
  have hqv : c.isValidPfx q = true := isValidPfx_of_mem (randPfx_ok hq)
  have hL : c.generate n p rands = generateCore c n q rands.tail := by
    unfold Chain.generate
    rw [if_neg (by simp [hinv]), hq]
  have hR : c.generateRand n rands = c.generate n q rands.tail := by
    unfold Chain.generateRand
    rw [hq]
  have hR2 : c.generate n q rands.tail = generateCore c n q rands.tail := by
    unfold Chain.generate
    rw [if_pos hqv]
  rw [hL, hR, hR2]

/-- C8 (witness): the equality at the concrete trained chain with the
invalid starting prefix zz. -/
theorem C8_witness :
    ((mkChain 2).addList ["the", "cat", "sat"]).generate 5 (["zz"]) [1, 0] =
      ((mkChain 2).addList ["the", "cat", "sat"]).generateRand 5 [1, 0] :=
  C8_thm _ 5 (["zz"]) [1, 0] (by decide) (by decide)

/-- C10: a final input line not terminated by a newline before end of stream
is never parsed into the mapping: appending any newline-free tail to an
input changes neither the completed-line list nor the result of read. -/
theorem C10_thm (c : Chain) (s t : String) (h : ∀ ch ∈ t.data, ch ≠ '\n') :
    c.read (s ++ t) = c.read s ∧ completedLines (s ++ t) = completedLines s := by
  have hc : completedLines (s ++ t) = completedLines s := by
    unfold completedLines
    rw [show (s ++ t).toList = s.toList ++ t.toList from toList_append s t]
    rw [dropLast_splitOnChar_append ('\n') s.toList t.toList (fun ch hch => h ch hch)]
  exact ⟨by unfold Chain.read; rw [hc], hc⟩

/-- C10 (witness): the theorem applied to an input whose final, well-formed
line lacks its newline; that line is dropped. -/
theorem C10_witness :
    (mkChain 2).read (("a b : c\n" ++ "d e : f")) = (mkChain 2).read ("a b : c\n") ∧
      completedLines ("a b : c\n" ++ "d e : f") = completedLines ("a b : c\n") :=
  C10_thm (mkChain 2) ("a b : c\n") ("d e : f") (by decide)

/-! Training invariant: windows of the stream and the map built by addList. -/

theorem addList_append (c : Chain) (ts : List String) (t : String) :
    c.addList (ts ++ [t]) = (c.addList ts).add t := by
  simp [Chain.addList, List.foldl_append]

theorem windows_nil_of_lt (L : Nat) (ts : List String) (h : ts.length < L) :
    windows L ts = [] := by
  unfold windows
  rw [Nat.sub_eq_zero_of_le (by omega)]
  simp

theorem windows_snoc (L : Nat) (ts : List String) (hL : 0 < L) (h : L ≤ ts.length) :
    windows L ts = windows L ts.dropLast ++ [ts.drop (ts.length - L)] := by
  unfold windows
  rw [List.length_dropLast]
  have h1 : ts.length + 1 - L = (ts.length - 1 + 1 - L) + 1 := by omega
  rw [h1, List.range_succ, List.map_append]
  congr 1
  · refine List.map_congr_left ?_
    intro i hi
    rw [List.mem_range] at hi
    rw [List.dropLast_eq_take, List.drop_take, List.take_take]
    have : L ⊓ (ts.length - 1 - i) = L := by
      rw [min_eq_left]
      omega
    rw [this]
  · have h2 : ts.length - 1 + 1 - L = ts.length - L := by omega
    rw [h2]
    simp only [List.map_cons, List.map_nil]
    rw [List.take_of_length_le (by rw [List.length_drop]; omega)]

theorem addList_invariant (L : Nat) (hL : 0 < L) (ts : List String) :
    ((mkChain L).addList ts).plen = L ∧
    ((mkChain L).addList ts).cursor = ts.drop (ts.length - L) ∧
    sortedKeys ((mkChain L).addList ts).map ∧
    (∀ k : Pfx, (mapFind ((mkChain L).addList ts).map k).isSome = true ↔
        k ∈ windows L ts.dropLast) := by
  induction ts using List.reverseRecOn with
  | nil =>
    refine ⟨rfl, by simp [Chain.addList, mkChain], ?_, ?_⟩
    · simp [Chain.addList, mkChain, sortedKeys]
    · intro k
      simp [Chain.addList, mkChain, mapFind, windows_nil_of_lt L [] (by simpa using hL)]
  | append_singleton ts t ih =>
    obtain ⟨hplen, hcur, hsort, hfind⟩ := ih
    rw [addList_append]
    by_cases hfull : ts.length < L
    · have hc : ((mkChain L).addList ts).cursor = ts := by
        rw [hcur, Nat.sub_eq_zero_of_le (le_of_lt hfull), List.drop_zero]
      have hne : ((mkChain L).addList ts).cursor.length ≠ ((mkChain L).addList ts).plen := by
        rw [hc, hplen]
        omega
      unfold Chain.add
      rw [if_neg hne]
      refine ⟨hplen, ?_, hsort, ?_⟩
      · rw [hc, List.length_append]
        simp only [List.length_singleton]
        rw [Nat.sub_eq_zero_of_le (by omega : ts.length + 1 ≤ L), List.drop_zero]
      · intro k
        rw [List.dropLast_concat]
        have hw1 : windows L ts = [] := windows_nil_of_lt L ts hfull
        have hw2 : windows L ts.dropLast = [] := by
          refine windows_nil_of_lt L _ ?_
          rw [List.length_dropLast]
          omega
        rw [hw1]
        rw [hw2] at hfind
        exact hfind k
    · push_neg at hfull
      have hclen : ((mkChain L).addList ts).cursor.length = ((mkChain L).addList ts).plen := by
        rw [hcur, hplen, List.length_drop]
        omega
      unfold Chain.add
      rw [if_pos hclen]
      refine ⟨hplen, ?_, sortedKeys_mapAppend hsort, ?_⟩
      · rw [hcur, List.tail_drop, List.length_append]
        simp only [List.length_singleton]
        rw [List.drop_append_of_le_length (by omega : ts.length + 1 - L ≤ ts.length)]
        have hidx : ts.length - L + 1 = ts.length + 1 - L := by omega
        rw [hidx]
      · intro k
        rw [List.dropLast_concat, windows_snoc L ts hL hfull, List.mem_append,
            List.mem_singleton]
        by_cases hk : k = ((mkChain L).addList ts).cursor
        · subst hk
          rw [mapFind_mapAppend_self _ t hsort]
          simp only [Option.isSome_some, true_iff]
          right
          exact hcur
        · rw [mapFind_mapAppend_ne t hk, hfind k]
          constructor
          · exact fun hh => Or.inl hh
          · intro hh
            rcases hh with hh | hh
            · exact hh
            · exact absurd (hh.trans hcur.symm) hk

/-- C1 (amended): add with a full window appends the token to the successor
list keyed by the current prefix (creating the entry if absent) and drops
the oldest window token, and in all cases appends the token to the back of
the window; after feeding a fresh chain any token stream, the number of map
entries equals the number of distinct length-prefix_len windows of the
stream without its last token — each window that is followed by at least
one more token — not of the whole stream, whose final window is never a
key; and no entry exists while fewer than prefix_len tokens have been
seen. -/
theorem C1_thm (c : Chain) (t : String) (L : Nat) (ts : List String) (hL : 0 < L) :
    (c.cursor.length = c.plen →
        (c.add t).map = mapAppend c.map c.cursor t ∧
        (c.add t).cursor = c.cursor.tail ++ [t] ∧ (c.add t).plen = c.plen) ∧
    (c.cursor.length ≠ c.plen →
        (c.add t).map = c.map ∧ (c.add t).cursor = c.cursor ++ [t] ∧
        (c.add t).plen = c.plen) ∧
    ((mkChain L).addList ts).map.length = (windows L ts.dropLast).toFinset.card ∧
    (ts.length < L → ((mkChain L).addList ts).map = []) := by
  obtain ⟨hplen, hcur, hsort, hfind⟩ := addList_invariant L hL ts
  refine ⟨?_, ?_, ?_, ?_⟩
  · intro h
    unfold Chain.add
    rw [if_pos h]
    exact ⟨rfl, rfl, rfl⟩
  · intro h
    unfold Chain.add
    rw [if_neg h]
    exact ⟨rfl, rfl, rfl⟩
  · have hnd : (((mkChain L).addList ts).map.map Prod.fst).Nodup := by
      rw [List.Nodup, List.pairwise_map]
      refine hsort.imp ?_
      intro a b hab hh
      rw [hh] at hab
      rw [keyLt_irrefl] at hab
      exact Bool.false_ne_true hab
    have hset : (((mkChain L).addList ts).map.map Prod.fst).toFinset =
        (windows L ts.dropLast).toFinset := by
      ext a
      rw [List.mem_toFinset, List.mem_toFinset, ← hfind a, mapFind_isSome_iff]
    rw [← hset, List.toFinset_card_of_nodup hnd, List.length_map]
  · intro h
    have hw : windows L ts.dropLast = [] := by
      refine windows_nil_of_lt L _ ?_
      rw [List.length_dropLast]
      omega
    rw [hw] at hfind
    cases hm : ((mkChain L).addList ts).map with
    | nil => rfl
    | cons e r =>
      exfalso
      have := (hfind e.fst).mp
      rw [hm] at this
      obtain ⟨k1, v1⟩ := e
      simp [mapFind] at this

/-- C1 (witness): the amended theorem applied to a chain with a full window
and to the concrete streams the/cat/sat (one entry, one distinct window of
the stream without its last token) and a (no entry while under two tokens
seen). -/
theorem C1_witness :
    (((⟨[], ["x", "y"], 2⟩ : Chain).add ("z")).map =
        mapAppend [] (["x", "y"]) ("z") ∧
      ((⟨[], ["x", "y"], 2⟩ : Chain).add ("z")).cursor = ["y", "z"] ∧
      ((⟨[], ["x", "y"], 2⟩ : Chain).add ("z")).plen = 2) ∧
    ((mkChain 2).addList ["the", "cat", "sat"]).map.length =
      (windows 2 ((["the", "cat", "sat"] : List String).dropLast)).toFinset.card ∧
    ((mkChain 2).addList ["a"]).map = [] := by
  have h1 := C1_thm (⟨[], ["x", "y"], 2⟩ : Chain) ("z") 2 ["the", "cat", "sat"] (by decide)
  have h2 := C1_thm (⟨[], ["x", "y"], 2⟩ : Chain) ("z") 2 ["a"] (by decide)
  have h3 := h1.1 (by decide)
  exact ⟨⟨h3.1, by rw [h3.2.1]; rfl, h3.2.2⟩, h1.2.2.1, h2.2.2.2 (by decide)⟩

/-- C1 (counterexample): the stream a, b has length at least 2 and one
distinct length-2 window, but training on it creates no map entry — the
final window has no successor and is never a key — refuting the claimed
entry count. -/
theorem C1_counterexample :
    2 ≤ (["a", "b"] : List String).length ∧
      ((mkChain 2).addList ["a", "b"]).map.length ≠
        (windows 2 (["a", "b"] : List String)).toFinset.card :=
  ⟨by decide, by decide⟩

/-! Behavior of parseLine, and preservation of the state invariant. -/

theorem mem_foldAppend {q : Pfx} {ws : List String} {m : List (Pfx × List String)}
    {e : Pfx × List String}
    (he : e ∈ ws.foldl (fun m2 w => mapAppend m2 q w) m) :
    e ∈ m ∨ (e.fst = q ∧ e.snd ≠ []) := by
  induction ws generalizing m with
  | nil => exact Or.inl he
  | cons w ws ih =>
    simp only [List.foldl_cons] at he
    rcases ih he with h1 | h1
    · exact mem_mapAppend h1
    · exact Or.inr h1

theorem parseLine_none {c : Chain} {line : String}
    (h : findSep line.toList = none) : c.parseLine line = (c, false) := by
  simp only [Chain.parseLine, h]

theorem parseLine_success {c : Chain} {line : String} {i : Nat}
    (h : findSep line.toList = some i)
    (hpl : c.plen = 0 ∨
      ((splitOnChar ' ' (line.toList.take i)).map String.mk).length = c.plen) :
    c.parseLine line =
      ({ map := ((splitOnChar ' ' (line.toList.drop (i + 3))).map String.mk).foldl
            (fun m w => mapAppend m ((splitOnChar ' ' (line.toList.take i)).map String.mk) w)
            c.map,
         cursor := (splitOnChar ' ' (line.toList.take i)).map String.mk,
         plen := if c.plen = 0
                 then ((splitOnChar ' ' (line.toList.take i)).map String.mk).length
                 else c.plen }, true) := by
  have hcond : ((splitOnChar ' ' (line.toList.take i)).map String.mk).length =
      (if c.plen = 0 then ((splitOnChar ' ' (line.toList.take i)).map String.mk).length
       else c.plen) := by
    by_cases h0 : c.plen = 0
    · rw [if_pos h0]
    · rw [if_neg h0]
      rcases hpl with h1 | h1
      · exact absurd h1 h0
      · exact h1
  simp only [Chain.parseLine, h]
  rw [if_pos hcond]

theorem parseLine_mismatch {c : Chain} {line : String} {i : Nat}
    (h : findSep line.toList = some i) (h0 : c.plen ≠ 0)
    (hne : ((splitOnChar ' ' (line.toList.take i)).map String.mk).length ≠ c.plen) :
    c.parseLine line = (c, false) := by
  simp only [Chain.parseLine, h]
  rw [if_neg (by rw [if_neg h0]; exact hne), if_neg h0]

theorem tokens_length_pos (sep : Char) (l : List Char) :
    0 < ((splitOnChar sep l).map String.mk).length := by
  rw [List.length_map]
  exact List.length_pos.mpr (splitOnChar_ne_nil sep l)

theorem WF_mkChain (L : Nat) : WF (mkChain L) := by
  constructor
  · intro e he
    simp [mkChain] at he
  · simp [mkChain]

theorem add_plen (c : Chain) (t : String) : (c.add t).plen = c.plen := by
  unfold Chain.add
  by_cases h : c.cursor.length = c.plen
  · rw [if_pos h]
  · rw [if_neg h]

theorem WF_add {c : Chain} (t : String) (hp : 0 < c.plen) (h : WF c) :
    WF (c.add t) := by
  obtain ⟨h1, h2⟩ := h
  unfold Chain.add
  by_cases hful : c.cursor.length = c.plen
  · rw [if_pos hful]
    constructor
    · intro e he
      rcases mem_mapAppend he with h3 | h3
      · exact h1 e h3
      · refine ⟨?_, h3.2⟩
        rw [h3.1]
        exact hful
    · simp only [List.length_append, List.length_tail, List.length_singleton]
      omega
  · rw [if_neg hful]
    constructor
    · exact h1
    · simp only [List.length_append, List.length_singleton]
      omega

theorem WF_addList {c : Chain} (ts : List String) (hp : 0 < c.plen) (h : WF c) :
    WF (c.addList ts) := by
  induction ts generalizing c with
  | nil => exact h
  | cons t ts ih =>
    have := ih (c := c.add t) (by rw [add_plen]; exact hp) (WF_add t hp h)
    simpa [Chain.addList] using this

theorem WF_generate {c : Chain} {n : Nat} {p : Pfx} {rands : List Nat}
    {ws : List String} {c2 : Chain} (h : WF c)
    (hg : c.generate n p rands = some (ws, c2)) : WF c2 := by
  obtain ⟨hm, hpl, _, hcur⟩ := generate_some hg
  obtain ⟨h1, _⟩ := h
  constructor
  · intro e he
    rw [hm] at he
    rw [hpl]
    exact h1 e he
  · rw [hpl]
    obtain ⟨v, hv⟩ := Option.isSome_iff_exists.mp hcur
    have := h1 _ (mapFind_mem hv)
    rw [this.1]

theorem WF_generateRand {c : Chain} {n : Nat} {rands : List Nat}
    {ws : List String} {c2 : Chain} (h : WF c)
    (hg : c.generateRand n rands = some (ws, c2)) : WF c2 := by
  unfold Chain.generateRand at hg
  split at hg
  · exact absurd hg (by simp)
  case h_2 q hq => exact WF_generate h hg

theorem parseLine_inv {c : Chain} (line : String)
    (h : (c.plen = 0 → c.map = []) ∧ WF c) :
    ((c.parseLine line).fst.plen = 0 → (c.parseLine line).fst.map = []) ∧
      WF (c.parseLine line).fst := by
  obtain ⟨h0, hw⟩ := h
  unfold WF at hw
  obtain ⟨hw1, hw2⟩ := hw
  cases hfs : findSep line.toList with
  | none =>
    rw [parseLine_none hfs]
    exact ⟨h0, hw1, hw2⟩
  | some i =>
    by_cases hpl : c.plen = 0 ∨
        ((splitOnChar ' ' (line.toList.take i)).map String.mk).length = c.plen
    · rw [parseLine_success hfs hpl]
      have htl := tokens_length_pos (' ') (line.toList.take i)
      constructor
      · intro hz
        exfalso
        by_cases hz0 : c.plen = 0
        · rw [if_pos hz0] at hz
          have hz2 : ((splitOnChar ' ' (line.toList.take i)).map String.mk).length = 0 := hz
          omega
        · rw [if_neg hz0] at hz
          exact hz0 hz
      · constructor
        · intro e he
          rcases mem_foldAppend he with h3 | h3
          · by_cases hz0 : c.plen = 0
            · rw [h0 hz0] at h3
              exact absurd h3 (List.not_mem_nil e)
            · rw [if_neg hz0]
              exact hw1 e h3
          · refine ⟨?_, h3.2⟩
            rw [h3.1]
            by_cases hz0 : c.plen = 0
            · rw [if_pos hz0]
            · rw [if_neg hz0]
              rcases hpl with h4 | h4
              · exact absurd h4 hz0
              · exact h4
        · by_cases hz0 : c.plen = 0
          · rw [if_pos hz0]
          · rw [if_neg hz0]
            rcases hpl with h4 | h4
            · exact absurd h4 hz0
            · rw [h4]
    · push_neg at hpl
      rw [parseLine_mismatch hfs hpl.1 hpl.2]
      exact ⟨h0, hw1, hw2⟩

theorem foldParse_inv (lines : List String) :
    ∀ c0 : Chain, ((c0.plen = 0 → c0.map = []) ∧ WF c0) →
      ((lines.foldl (fun ch l => (ch.parseLine l).fst) c0).plen = 0 →
          (lines.foldl (fun ch l => (ch.parseLine l).fst) c0).map = []) ∧
        WF (lines.foldl (fun ch l => (ch.parseLine l).fst) c0) := by
  induction lines with
  | nil => exact fun c0 h => h
  | cons l lines ih =>
    intro c0 h
    simp only [List.foldl_cons]
    exact ih _ (parseLine_inv l h)

theorem WF_read (c : Chain) (s : String) : WF (c.read s) := by
  unfold Chain.read
  exact (foldParse_inv (completedLines s) ⟨[], [], 0⟩
    ⟨fun _ => rfl, fun e he => absurd he (List.not_mem_nil e), by simp⟩).2

theorem WF_setPlen (c : Chain) (L : Nat) : WF (c.setPlen L) := by
  constructor
  · intro e he
    exact absurd he (List.not_mem_nil e)
  · simp [Chain.setPlen]

theorem WF_setCursor {c : Chain} (p : Pfx) (h : WF c) : WF (c.setCursor p) := by
  unfold Chain.setCursor
  by_cases hv : c.isValidPfx p = true
  · rw [if_pos hv]
    refine ⟨h.1, ?_⟩
    unfold Chain.isValidPfx at hv
    obtain ⟨v, hfv⟩ := Option.isSome_iff_exists.mp hv
    have := h.1 _ (mapFind_mem hfv)
    simp only []
    rw [this.1]
  · rw [if_neg hv]
    exact h

/-- C9: the state invariant — every map key has length exactly prefix_len,
the current prefix never exceeds prefix_len in length, and no entry has an
empty successor list — holds for a freshly constructed chain and is
preserved by add (single token and stream forms, for the data model's
positive prefix length; with prefix length 0 the source's pop_front on an
empty deque would itself be undefined behavior), by both generate forms, by
read from any input (unconditionally), by the prefix-length setter and by
the cursor setter; write does not mutate the chain at all. -/
theorem C9_thm (L : Nat) (c : Chain) (t : String) (ts : List String) (b : Bool)
    (n : Nat) (p : Pfx) (rands : List Nat) (ws ws2 : List String) (c2 c3 : Chain)
    (s : String) :
    WF (mkChain L) ∧
    (0 < c.plen → WF c → WF (c.add t)) ∧
    (0 < c.plen → WF c → WF (c.addStream ts b)) ∧
    (WF c → c.generate n p rands = some (ws, c2) → WF c2) ∧
    (WF c → c.generateRand n rands = some (ws2, c3) → WF c3) ∧
    WF (c.read s) ∧
    WF (c.setPlen L) ∧
    (WF c → WF (c.setCursor p)) := by
  refine ⟨WF_mkChain L, fun hp h => WF_add t hp h, fun hp h => ?_, ?_, ?_, WF_read c s,
    WF_setPlen c L, fun h => WF_setCursor p h⟩
  · unfold Chain.addStream
    cases b with
    | false => exact WF_addList ts hp h
    | true =>
      refine WF_addList ts hp ?_
      exact ⟨h.1, by simp⟩
  · exact fun h hg => WF_generate h hg
  · exact fun h hg => WF_generateRand h hg

/-- C9 (witness): the invariant checked through each operation on the
concrete trained chain. -/
theorem C9_witness :
    WF (mkChain 3) ∧
    WF (((mkChain 2).addList ["the", "cat", "sat"]).add ("x")) ∧
    WF (((mkChain 2).addList ["the", "cat", "sat"]).addStream ["a", "b"] true) ∧
    WF (⟨[((["the", "cat"]), ["sat"])], ["the", "cat"], 2⟩ : Chain) ∧
    WF (((mkChain 2).addList ["the", "cat", "sat"]).read ("the cat : sat run\n")) ∧
    WF (((mkChain 2).addList ["the", "cat", "sat"]).setPlen 3) ∧
    WF (((mkChain 2).addList ["the", "cat", "sat"]).setCursor (["the", "cat"])) := by
  have h := C9_thm 3 ((mkChain 2).addList ["the", "cat", "sat"]) ("x") ["a", "b"] true
    4 (["the", "cat"]) [0] ["the", "cat", "sat"] ["the", "cat", "sat"]
    (⟨[((["the", "cat"]), ["sat"])], ["the", "cat"], 2⟩ : Chain)
    (⟨[((["the", "cat"]), ["sat"])], ["the", "cat"], 2⟩ : Chain) ("the cat : sat run\n")
  exact ⟨h.1, h.2.1 (by decide) (by decide), h.2.2.1 (by decide) (by decide),
    h.2.2.2.1 (by decide) (by decide), h.2.2.2.2.2.1, h.2.2.2.2.2.2.1,
    h.2.2.2.2.2.2.2 (by decide)⟩

/-- C7: during read, a line with no space-colon-space separator is skipped
silently (chain unchanged, no error); when the prefix length is still
unset (0), the first successfully parsed line's prefix token count becomes
the model's prefix length; a later line whose prefix token count differs
from the established length is skipped silently; and a matching line
appends its successor tokens to the entry keyed by its prefix — never
replacing the existing successors — leaving every other key's entry
unchanged. -/
theorem C7_thm (c : Chain) (line : String) (i : Nat) :
    (findSep line.toList = none → c.parseLine line = (c, false)) ∧
    (findSep line.toList = some i → c.plen = 0 →
        (c.parseLine line).snd = true ∧
        (c.parseLine line).fst.plen =
          ((splitOnChar ' ' (line.toList.take i)).map String.mk).length) ∧
    (findSep line.toList = some i → c.plen ≠ 0 →
        ((splitOnChar ' ' (line.toList.take i)).map String.mk).length ≠ c.plen →
        c.parseLine line = (c, false)) ∧
    (findSep line.toList = some i → sortedKeys c.map →
        ((splitOnChar ' ' (line.toList.take i)).map String.mk).length = c.plen →
        mapFind (c.parseLine line).fst.map
            ((splitOnChar ' ' (line.toList.take i)).map String.mk) =
          some ((mapFind c.map
                  ((splitOnChar ' ' (line.toList.take i)).map String.mk)).getD []
              ++ (splitOnChar ' ' (line.toList.drop (i + 3))).map String.mk) ∧
        (∀ k : Pfx, k ≠ (splitOnChar ' ' (line.toList.take i)).map String.mk →
            mapFind (c.parseLine line).fst.map k = mapFind c.map k) ∧
        (c.parseLine line).snd = true) := by
  refine ⟨fun h => parseLine_none h, ?_, ?_, ?_⟩
  · intro h h0
    rw [parseLine_success h (Or.inl h0)]
    exact ⟨rfl, by rw [if_pos h0]⟩
  · intro h h0 hne
    exact parseLine_mismatch h h0 hne
  · intro h hs hlen
    rw [parseLine_success h (Or.inr hlen)]
    have hsuf : ((splitOnChar ' ' (line.toList.drop (i + 3))).map String.mk) ≠ [] := by
      have := splitOnChar_ne_nil (' ') (line.toList.drop (i + 3))
      simpa using this
    refine ⟨?_, ?_, rfl⟩
    · exact mapFind_foldAppend_self _ _ c.map hs hsuf
    · intro k hk
      exact mapFind_foldAppend_ne hk _ c.map

/-- C7 (witness): the four behaviors on concrete lines — a separator-free
line is skipped, the first parsed line sets the prefix length, a
mismatched line is skipped, and a matching line appends to the keyed entry
while other keys are untouched. -/
theorem C7_witness :
    ((mkChain 2).parseLine ("no colon here") = ((mkChain 2), false)) ∧
    ((⟨[], [], 0⟩ : Chain).parseLine ("the cat : sat")).snd = true ∧
    ((⟨[], [], 0⟩ : Chain).parseLine ("the cat : sat")).fst.plen = 2 ∧
    ((⟨[((["a", "b"]), ["c"])], ["a", "b"], 2⟩ : Chain).parseLine ("x : y") =
      ((⟨[((["a", "b"]), ["c"])], ["a", "b"], 2⟩ : Chain), false)) ∧
    mapFind ((⟨[((["a", "b"]), ["c"])], ["a", "b"], 2⟩ : Chain).parseLine
        ("a b : d")).fst.map (["a", "b"]) = some (["c", "d"]) ∧
    mapFind ((⟨[((["a", "b"]), ["c"])], ["a", "b"], 2⟩ : Chain).parseLine
        ("a b : d")).fst.map (["z"]) = mapFind [((["a", "b"]), ["c"])] (["z"]) := by
  have h1 := C7_thm (mkChain 2) ("no colon here") 0
  have h2 := C7_thm (⟨[], [], 0⟩ : Chain) ("the cat : sat") 7
  have h3 := C7_thm (⟨[((["a", "b"]), ["c"])], ["a", "b"], 2⟩ : Chain) ("x : y") 1
  have h4 := C7_thm (⟨[((["a", "b"]), ["c"])], ["a", "b"], 2⟩ : Chain) ("a b : d") 3
  refine ⟨h1.1 (by decide), (h2.2.1 (by decide) rfl).1,
    (h2.2.1 (by decide) rfl).2.trans (by decide),
    h3.2.2.1 (by decide) (by decide) (by decide), ?_, ?_⟩
  · have h5 := (h4.2.2.2 (by decide) (by decide) (by decide)).1
    have e1 : (splitOnChar ' ' (("a b : d").toList.take 3)).map String.mk = ["a", "b"] := by
      decide
    have e2 : (splitOnChar ' ' (("a b : d").toList.drop 6)).map String.mk = ["d"] := by
      decide
    rw [e1, e2] at h5
    rw [h5]
    decide
  · exact (h4.2.2.2 (by decide) (by decide) (by decide)).2.1 (["z"]) (by decide)

/-! The write format. -/

theorem pfxPart_eq (p : List String) (hp : p ≠ []) :
    pfxPart p = joinSp p ++ " " := by
  induction p with
  | nil => exact absurd rfl hp
  | cons t ts ih =>
    cases ts with
    | nil =>
      show t ++ " " ++ pfxPart [] = joinSp [t] ++ " "
      rw [show pfxPart [] = ("") from rfl, String.append_empty]
      rfl
    | cons t2 ts2 =>
      show t ++ " " ++ pfxPart (t2 :: ts2) = joinSp (t :: t2 :: ts2) ++ " "
      rw [ih (by simp)]
      rw [show joinSp (t :: t2 :: ts2) = t ++ " " ++ joinSp (t2 :: ts2) from rfl]
      rw [String.append_assoc (t ++ " ") (joinSp (t2 :: ts2)) (" ")]

theorem sufPart_eq (s : List String) (hs : s ≠ []) :
    sufPart s = joinSp s ++ "\n" := by
  induction s with
  | nil => exact absurd rfl hs
  | cons w ws ih =>
    cases ws with
    | nil => rfl
    | cons w2 ws2 =>
      show w ++ " " ++ sufPart (w2 :: ws2) = joinSp (w :: w2 :: ws2) ++ "\n"
      rw [ih (by simp)]
      rw [show joinSp (w :: w2 :: ws2) = w ++ " " ++ joinSp (w2 :: ws2) from rfl]
      rw [String.append_assoc (w ++ " ") (joinSp (w2 :: ws2)) ("\n")]

theorem entry_line_eq (p : Pfx) (s : List String) (hp : p ≠ []) (hs : s ≠ []) :
    pfxPart p ++ ": " ++ sufPart s = specLine p s := by
  rw [pfxPart_eq p hp, sufPart_eq s hs]
  unfold specLine
  rw [String.append_assoc (joinSp p) (" ") (": "),
      show (" " ++ ": " : String) = (" : ") from rfl,
      ← String.append_assoc (joinSp p ++ " : ") (joinSp s) ("\n")]

/-- C6: write emits one line per mapping entry — the entry's prefix tokens
separated by single spaces, the literal three-character space-colon-space
separator, the successor tokens separated by single spaces, and a line
break — for every chain of the data model (keys and successor lists
non-empty); in particular writing the chain whose sole entry maps the/cat
to sat outputs exactly the line "the cat : sat" with its line break. -/
theorem C6_thm (c : Chain) (h : ∀ e ∈ c.map, e.fst ≠ [] ∧ e.snd ≠ []) :
    c.write = strConcat (c.map.map (fun e => specLine e.fst e.snd)) ∧
    ((mkChain 2).addList ["the", "cat", "sat"]).write = "the cat : sat\n" := by
  refine ⟨?_, by decide⟩
  unfold Chain.write
  suffices h2 : ∀ m : List (Pfx × List String), (∀ e ∈ m, e.fst ≠ [] ∧ e.snd ≠ []) →
      strConcat (m.map (fun e => pfxPart e.fst ++ ": " ++ sufPart e.snd)) =
        strConcat (m.map (fun e => specLine e.fst e.snd)) by
    exact h2 c.map h
  intro m hm
  induction m with
  | nil => rfl
  | cons e m ih =>
    simp only [List.map_cons, strConcat]
    rw [entry_line_eq e.fst e.snd (hm e (by simp)).1 (hm e (by simp)).2,
        ih (fun e2 he2 => hm e2 (by simp [he2]))]

/-- C6 (witness): the format equality and the concrete line at the trained
one-entry chain. -/
theorem C6_witness :
    ((mkChain 2).addList ["the", "cat", "sat"]).write =
      strConcat ((((mkChain 2).addList ["the", "cat", "sat"]).map).map
        (fun e => specLine e.fst e.snd)) ∧
    ((mkChain 2).addList ["the", "cat", "sat"]).write = "the cat : sat\n" :=
  C6_thm ((mkChain 2).addList ["the", "cat", "sat"]) (by decide)

/-! Character-level lemmas for the round trip through write and read. -/

theorem data_append (a b : String) : (a ++ b).data = a.data ++ b.data := by
  cases a
  cases b
  rfl

theorem mk_data (s : String) : String.mk s.data = s := by
  cases s
  rfl

theorem pfxPart_data (t : String) (ts : List String) :
    (pfxPart (t :: ts)).data = t.data ++ ' ' :: (pfxPart ts).data := by
  rw [show pfxPart (t :: ts) = (t ++ " ") ++ pfxPart ts from rfl,
      data_append, data_append, List.append_assoc]
  rfl

theorem joinSp_data_cons (t t2 : String) (ps : List String) :
    (joinSp (t :: t2 :: ps)).data = t.data ++ ' ' :: (joinSp (t2 :: ps)).data := by
  rw [show joinSp (t :: t2 :: ps) = (t ++ " ") ++ joinSp (t2 :: ps) from rfl,
      data_append, data_append, List.append_assoc]
  rfl

theorem no_nl_joinSp (p : List String) (hcl : ∀ t ∈ p, cleanStr t) :
    ∀ ch ∈ (joinSp p).data, ch ≠ '\n' := by
  induction p with
  | nil => intro ch hch; exact absurd hch (List.not_mem_nil ch)
  | cons t ts ih =>
    cases ts with
    | nil =>
      intro ch hch
      exact ((hcl t (by simp)) ch hch).2
    | cons t2 ts2 =>
      intro ch hch
      rw [joinSp_data_cons] at hch
      rcases List.mem_append.mp hch with h1 | h1
      · exact ((hcl t (by simp)) ch h1).2
      · rcases List.mem_cons.mp h1 with h2 | h2
        · rw [h2]; decide
        · exact ih (fun t3 h3 => hcl t3 (by simp [h3])) ch h2

theorem no_nl_pfxPart (p : List String) (hcl : ∀ t ∈ p, cleanStr t) :
    ∀ ch ∈ (pfxPart p).data, ch ≠ '\n' := by
  induction p with
  | nil => intro ch hch; exact absurd hch (List.not_mem_nil ch)
  | cons t ts ih =>
    intro ch hch
    rw [pfxPart_data] at hch
    rcases List.mem_append.mp hch with h1 | h1
    · exact ((hcl t (by simp)) ch h1).2
    · rcases List.mem_cons.mp h1 with h2 | h2
      · rw [h2]; decide
      · exact ih (fun t3 h3 => hcl t3 (by simp [h3])) ch h2

theorem findSep_skip (xs rest : List Char) (h : ∀ c ∈ xs, c ≠ ' ') :
    findSep (xs ++ rest) = (findSep rest).map (fun n => n + xs.length) := by
  induction xs with
  | nil =>
    simp only [List.nil_append, List.length_nil]
    cases hx : findSep rest <;> simp
  | cons c t ih =>
    have hc : c ≠ ' ' := h c (by simp)
    simp only [List.cons_append, findSep]
    rw [if_neg ?hne]
    case hne =>
      intro heq
      rw [List.take_succ_cons] at heq
      injection heq with h1 _
      exact hc h1
    rw [show List.append t rest = t ++ rest from rfl, ih (fun x hx => h x (by simp [hx]))]
    cases findSep rest with
    | none => rfl
    | some n => simp only [Option.map_some', List.length_cons]; congr 1 <;> omega

theorem findSep_hit (rest : List Char) : findSep (' ' :: ':' :: ' ' :: rest) = some 0 := by
  simp [findSep]

theorem pfx_take2_ne (t' : String) (ps : List String)
    (hcl : cleanStr t') (hne2 : t' ≠ (":")) (z : List Char) :
    ((pfxPart (t' :: ps)).data ++ z).take 2 ≠ [':', ' '] := by
  rw [pfxPart_data]
  cases ht : t'.data with
  | nil =>
    intro heq
    simp only [List.nil_append, List.cons_append, List.take_succ_cons] at heq
    injection heq with h1 _
    exact absurd h1 (by decide)
  | cons ch cs =>
    by_cases hc : ch = ':'
    · cases cs with
      | nil =>
        exfalso
        apply hne2
        rw [← mk_data t', ht, hc]
      | cons c2 cs2 =>
        have hc2 : c2 ≠ ' ' := (hcl c2 (by rw [ht]; simp)).1
        intro heq
        simp only [List.cons_append, List.take_succ_cons, List.take_zero] at heq
        injection heq with h1 h2
        injection h2 with h3 _
        exact hc2 h3
    · intro heq
      simp only [List.cons_append, List.take_succ_cons] at heq
      injection heq with h1 _
      exact hc h1

theorem pfxPart_data_pos (t : String) (ts : List String) :
    0 < (pfxPart (t :: ts)).data.length := by
  rw [pfxPart_data]
  simp

theorem findSep_line (p : List String) (hp : p ≠ [])
    (hcl : ∀ t ∈ p, cleanStr t ∧ t ≠ (":")) (B : List Char) :
    findSep ((pfxPart p).data ++ ':' :: ' ' :: B) =
      some ((pfxPart p).data.length - 1) := by
  induction p with
  | nil => exact absurd rfl hp
  | cons t ps ih =>
    cases ps with
    | nil =>
      rw [pfxPart_data,
          show (pfxPart ([] : List String)).data = ([] : List Char) from rfl]
      have hshape : (t.data ++ [' ']) ++ ':' :: ' ' :: B =
          t.data ++ ' ' :: ':' :: ' ' :: B := by
        rw [List.append_assoc]
        rfl
      rw [show (t.data ++ ' ' :: ([] : List Char)) ++ ':' :: ' ' :: B =
            t.data ++ ' ' :: ':' :: ' ' :: B from hshape]
      rw [findSep_skip _ _ (fun c hc => ((hcl t (by simp)).1 c hc).1), findSep_hit]
      simp only [Option.map_some', List.length_append, List.length_cons,
        List.length_nil]
      congr 1 <;> omega
    | cons t2 ps2 =>
      rw [pfxPart_data]
      have hshape : (t.data ++ ' ' :: (pfxPart (t2 :: ps2)).data) ++ ':' :: ' ' :: B =
          t.data ++ ' ' :: ((pfxPart (t2 :: ps2)).data ++ ':' :: ' ' :: B) := by
        simp [List.append_assoc]
      rw [hshape, findSep_skip _ _ (fun c hc => ((hcl t (by simp)).1 c hc).1)]
      have hcond : ¬ ((' ' :: ((pfxPart (t2 :: ps2)).data ++ ':' :: ' ' :: B)).take 3 =
          ([' ', ':', ' '] : List Char)) := by
        intro heq
        rw [List.take_succ_cons] at heq
        injection heq with _ h2
        exact pfx_take2_ne t2 ps2 (hcl t2 (by simp)).1 (hcl t2 (by simp)).2 _ h2
      have hstep : findSep (' ' :: ((pfxPart (t2 :: ps2)).data ++ ':' :: ' ' :: B)) =
          (findSep ((pfxPart (t2 :: ps2)).data ++ ':' :: ' ' :: B)).map
            (fun n => n + 1) := by
        simp only [findSep]
        rw [if_neg hcond]
      rw [hstep, ih (by simp) (fun t3 h3 => hcl t3 (by simp [h3]))]
      have hpos := pfxPart_data_pos t2 ps2
      simp only [Option.map_some', List.length_append, List.length_cons]
      congr 1 <;> omega

theorem splitSp_joinSp (p : List String) (hp : p ≠ [])
    (hcl : ∀ t ∈ p, cleanStr t) :
    splitOnChar ' ' ((joinSp p).data) = p.map String.data := by
  induction p with
  | nil => exact absurd rfl hp
  | cons t ps ih =>
    cases ps with
    | nil =>
      rw [show joinSp [t] = t from rfl,
          splitOnChar_no_sep _ _ (fun c hc => ((hcl t (by simp)) c hc).1)]
      rfl
    | cons t2 ps2 =>
      rw [joinSp_data_cons,
          splitOnChar_append_sep _ _ _ (fun c hc => ((hcl t (by simp)) c hc).1),
          ih (by simp) (fun t3 h3 => hcl t3 (by simp [h3]))]
      rfl

theorem tokens_of_joinSp (p : List String) (hp : p ≠ [])
    (hcl : ∀ t ∈ p, cleanStr t) :
    (splitOnChar ' ' ((joinSp p).data)).map String.mk = p := by
  rw [splitSp_joinSp p hp hcl, List.map_map]
  have : (String.mk ∘ String.data) = fun s : String => s := by
    funext s
    exact mk_data s
  rw [this, List.map_id']

theorem parse_body (c : Chain) (p : Pfx) (suf : List String)
    (hp : p ≠ []) (hsuf : suf ≠ [])
    (hpcl : ∀ t ∈ p, cleanStr t ∧ t ≠ (":"))
    (hscl : ∀ t ∈ suf, cleanStr t)
    (hpl : c.plen = 0 ∨ p.length = c.plen) :
    c.parseLine (String.mk ((pfxPart p).data ++ ':' :: ' ' :: (joinSp suf).data)) =
      ({ map := suf.foldl (fun m w => mapAppend m p w) c.map,
         cursor := p,
         plen := if c.plen = 0 then p.length else c.plen }, true) := by
  have hA : (pfxPart p).data = (joinSp p).data ++ [' '] := by
    rw [pfxPart_eq p hp, data_append]
  have hfs : findSep (String.mk ((pfxPart p).data ++ ':' :: ' ' ::
      (joinSp suf).data)).toList = some ((pfxPart p).data.length - 1) :=
    findSep_line p hp hpcl _
  have htemp : (splitOnChar ' ' ((String.mk ((pfxPart p).data ++ ':' :: ' ' ::
      (joinSp suf).data)).toList.take ((pfxPart p).data.length - 1))).map String.mk = p := by
    have h1 : (String.mk ((pfxPart p).data ++ ':' :: ' ' ::
        (joinSp suf).data)).toList.take ((pfxPart p).data.length - 1) = (joinSp p).data := by
      show ((pfxPart p).data ++ ':' :: ' ' :: (joinSp suf).data).take
          ((pfxPart p).data.length - 1) = (joinSp p).data
      rw [List.take_append_of_le_length (by omega), ← List.dropLast_eq_take, hA,
          List.dropLast_concat]
    rw [h1]
    exact tokens_of_joinSp p hp (fun t ht => (hpcl t ht).1)
  have hsufs : (splitOnChar ' ' ((String.mk ((pfxPart p).data ++ ':' :: ' ' ::
      (joinSp suf).data)).toList.drop ((pfxPart p).data.length - 1 + 3))).map String.mk =
      suf := by
    have h1 : (String.mk ((pfxPart p).data ++ ':' :: ' ' ::
        (joinSp suf).data)).toList.drop ((pfxPart p).data.length - 1 + 3) =
        (joinSp suf).data := by
      show ((pfxPart p).data ++ ':' :: ' ' :: (joinSp suf).data).drop
          ((pfxPart p).data.length - 1 + 3) = (joinSp suf).data
      have h2 : (pfxPart p).data ++ ':' :: ' ' :: (joinSp suf).data =
          ((pfxPart p).data ++ [':', ' ']) ++ (joinSp suf).data := by
        simp
      have hposA : 0 < (pfxPart p).data.length := by
        cases p with
        | nil => exact absurd rfl hp
        | cons t ts => exact pfxPart_data_pos t ts
      have h3 : ((pfxPart p).data ++ [':', ' ']).length =
          (pfxPart p).data.length - 1 + 3 := by
        simp only [List.length_append, List.length_cons, List.length_nil]
        omega
      rw [h2, ← h3, List.drop_left]
    rw [h1]
    exact tokens_of_joinSp suf hsuf hscl
  have hpl2 : c.plen = 0 ∨ ((splitOnChar ' ' ((String.mk ((pfxPart p).data ++ ':' :: ' ' ::
      (joinSp suf).data)).toList.take ((pfxPart p).data.length - 1))).map String.mk).length =
      c.plen := by
    rcases hpl with h0 | h0
    · exact Or.inl h0
    · right
      rw [htemp]
      exact h0
  rw [parseLine_success hfs hpl2, htemp, hsufs]

theorem parse_body_fst (c : Chain) (p : Pfx) (suf : List String)
    (hp : p ≠ []) (hsuf : suf ≠ [])
    (hpcl : ∀ t ∈ p, cleanStr t ∧ t ≠ (":"))
    (hscl : ∀ t ∈ suf, cleanStr t)
    (hpl : c.plen = 0 ∨ p.length = c.plen) :
    (c.parseLine (String.mk ((pfxPart p).data ++ ':' :: ' ' ::
        (joinSp suf).data))).fst =
      ⟨suf.foldl (fun m w => mapAppend m p w) c.map, p,
        if c.plen = 0 then p.length else c.plen⟩ := by
  rw [parse_body c p suf hp hsuf hpcl hscl hpl]

theorem strConcat_data (l : List String) :
    (strConcat l).data = (l.map String.data).join := by
  induction l with
  | nil => rfl
  | cons s l ih =>
    show (s ++ strConcat l).data = _
    rw [data_append, ih]
    rfl

theorem entry_data (p : Pfx) (s : List String) (hs : s ≠ []) :
    (pfxPart p ++ ": " ++ sufPart s).data =
      ((pfxPart p).data ++ ':' :: ' ' :: (joinSp s).data) ++ ['\n'] := by
  rw [sufPart_eq s hs, data_append, data_append, data_append,
      show (": ").data = ([':', ' '] : List Char) from rfl,
      show ("\n").data = (['\n'] : List Char) from rfl]
  simp [List.append_assoc]

theorem splitNl_write (es : List (Pfx × List String))
    (h : ∀ e ∈ es, e.snd ≠ [] ∧ (∀ ch ∈ (pfxPart e.fst).data, ch ≠ '\n') ∧
        (∀ ch ∈ (joinSp e.snd).data, ch ≠ '\n')) :
    splitOnChar ('\n')
        ((strConcat (es.map (fun e => pfxPart e.fst ++ ": " ++ sufPart e.snd))).data) =
      es.map (fun e => (pfxPart e.fst).data ++ ':' :: ' ' :: (joinSp e.snd).data)
        ++ [[]] := by
  induction es with
  | nil => rfl
  | cons e es ih =>
    simp only [List.map_cons]
    rw [show strConcat ((pfxPart e.fst ++ ": " ++ sufPart e.snd) ::
          (es.map (fun e2 => pfxPart e2.fst ++ ": " ++ sufPart e2.snd))) =
        (pfxPart e.fst ++ ": " ++ sufPart e.snd) ++
          strConcat (es.map (fun e2 => pfxPart e2.fst ++ ": " ++ sufPart e2.snd))
        from rfl]
    rw [data_append, entry_data e.fst e.snd (h e (by simp)).1, List.append_assoc]
    rw [show (['\n'] : List Char) ++
          (strConcat (es.map (fun e2 => pfxPart e2.fst ++ ": " ++ sufPart e2.snd))).data =
        '\n' :: (strConcat (es.map (fun e2 =>
          pfxPart e2.fst ++ ": " ++ sufPart e2.snd))).data from rfl]
    rw [splitOnChar_append_sep _ _ _ ?hnl]
    · rw [ih (fun e2 he2 => h e2 (by simp [he2]))]
      rfl
    case hnl =>
      intro ch hch
      rcases List.mem_append.mp hch with h1 | h1
      · exact (h e (by simp)).2.1 ch h1
      · rcases List.mem_cons.mp h1 with h2 | h2
        · rw [h2]; decide
        · rcases List.mem_cons.mp h2 with h3 | h3
          · rw [h3]; decide
          · exact (h e (by simp)).2.2 ch h3

theorem completedLines_write (c : Chain)
    (h : ∀ e ∈ c.map, e.snd ≠ [] ∧ (∀ ch ∈ (pfxPart e.fst).data, ch ≠ '\n') ∧
        (∀ ch ∈ (joinSp e.snd).data, ch ≠ '\n')) :
    completedLines (c.write) =
      c.map.map (fun e => String.mk ((pfxPart e.fst).data ++ ':' :: ' ' ::
        (joinSp e.snd).data)) := by
  unfold completedLines Chain.write
  rw [show (strConcat (c.map.map (fun e =>
        pfxPart e.fst ++ ": " ++ sufPart e.snd))).toList =
      (strConcat (c.map.map (fun e =>
        pfxPart e.fst ++ ": " ++ sufPart e.snd))).data from rfl]
  rw [splitNl_write c.map h, List.dropLast_concat, List.map_map]
  rfl

theorem readFold (L : Nat) (hL : 0 < L) :
    ∀ (es done : List (Pfx × List String)) (cur0 : Pfx) (pl0 : Nat), es ≠ [] →
      (∀ e ∈ done ++ es, e.fst.length = L ∧ e.snd ≠ [] ∧
          (∀ t ∈ e.fst, cleanStr t ∧ t ≠ (":")) ∧ (∀ t ∈ e.snd, cleanStr t)) →
      sortedKeys (done ++ es) →
      (pl0 = 0 ∨ pl0 = L) →
      (es.map (fun e => String.mk ((pfxPart e.fst).data ++ ':' :: ' ' ::
          (joinSp e.snd).data))).foldl (fun ch l => (ch.parseLine l).fst)
          (⟨done, cur0, pl0⟩ : Chain) =
        ⟨done ++ es, ((es.getLast?).getD ([], [])).fst, L⟩ := by
  intro es
  induction es with
  | nil =>
    intro done cur0 pl0 hne
    exact absurd rfl hne
  | cons e es ih =>
    intro done cur0 pl0 _ hall hsort hpl
    unfold sortedKeys at hsort
    have he := hall e (by simp)
    have hpne : e.fst ≠ [] := by
      intro hx
      have h1 := he.1
      rw [hx] at h1
      simp at h1
      omega
    have hplc : (⟨done, cur0, pl0⟩ : Chain).plen = 0 ∨
        e.fst.length = (⟨done, cur0, pl0⟩ : Chain).plen := by
      rcases hpl with h0 | h0
      · exact Or.inl h0
      · right
        rw [he.1, h0]
    have hrel : ∀ d ∈ done, d.fst ≠ e.fst ∧ keyLt e.fst d.fst = false := by
      intro d hd
      have hlt := (List.pairwise_append.mp hsort).2.2 d hd e (by simp)
      constructor
      · intro hx
        rw [hx] at hlt
        rw [keyLt_irrefl] at hlt
        exact Bool.false_ne_true hlt
      · exact keyLt_asymm hlt
    have hplen2 : (if (⟨done, cur0, pl0⟩ : Chain).plen = 0 then e.fst.length
        else (⟨done, cur0, pl0⟩ : Chain).plen) = L := by
      show (if pl0 = 0 then e.fst.length else pl0) = L
      rcases hpl with h0 | h0
      · rw [if_pos h0, he.1]
      · rw [if_neg (by omega), h0]
    have hfold : e.snd.foldl (fun m w => mapAppend m e.fst w)
        (⟨done, cur0, pl0⟩ : Chain).map = done ++ [e] := by
      show e.snd.foldl (fun m w => mapAppend m e.fst w) done = done ++ [e]
      rw [foldAppend_new e.snd done he.2.1 hrel]
    simp only [List.map_cons, List.foldl_cons]
    rw [parse_body_fst _ _ _ hpne he.2.1 he.2.2.1 he.2.2.2 hplc, hfold, hplen2]
    cases es with
    | nil =>
      simp only [List.map_nil, List.foldl_nil]
      rfl
    | cons e2 es2 =>
      have hconv : (done ++ [e]) ++ e2 :: es2 = done ++ e :: e2 :: es2 := by
        simp
      rw [ih (done ++ [e]) e.fst L (by simp)
          (fun e3 he3 => hall e3 (by rw [← hconv]; exact he3))
          (by show sortedKeys _; rw [hconv]; exact hsort) (Or.inr rfl)]
      rw [hconv]
      rfl

/-- C2 (amended): for every non-empty chain of the data model whose tokens
are clean — no token contains a space or newline and no prefix token is the
single character colon, which is all the write format can represent — write
followed by read on a fresh chain reproduces the mapping exactly (hence as
a set of prefix to successor-multiset pairs) and the prefix length, and
leaves the cursor at the prefix of the last successfully parsed line; for
the empty chain the round trip loses the prefix length (read of an empty
stream leaves it 0), so the claim as stated fails there. -/
theorem C2_thm (c d : Chain) (hne : c.map ≠ []) (hL : 0 < c.plen)
    (hwf : ∀ e ∈ c.map, e.fst.length = c.plen ∧ e.snd ≠ [])
    (hsort : sortedKeys c.map)
    (hclean : ∀ e ∈ c.map, (∀ t ∈ e.fst, cleanStr t ∧ t ≠ (":")) ∧
        (∀ t ∈ e.snd, cleanStr t)) :
    (d.read (c.write)).map = c.map ∧ (d.read (c.write)).plen = c.plen ∧
      (d.read (c.write)).cursor = ((c.map.getLast?).getD ([], [])).fst := by
  unfold Chain.read
  rw [completedLines_write c (fun e hee =>
    ⟨(hwf e hee).2, no_nl_pfxPart e.fst (fun t ht => ((hclean e hee).1 t ht).1),
      no_nl_joinSp e.snd (hclean e hee).2⟩)]
  rw [readFold c.plen hL c.map [] [] 0 hne
    (fun e hee => ⟨(hwf e hee).1, (hwf e hee).2, (hclean e hee).1, (hclean e hee).2⟩)
    hsort (Or.inl rfl)]
  exact ⟨rfl, rfl, rfl⟩

/-- C2 (counterexample): for the empty chain with prefix length 2, write
emits nothing and read of the empty stream leaves prefix length 0, so the
round trip does not reproduce the prefix length of every chain. -/
theorem C2_counterexample :
    ((mkChain 2).read ((mkChain 2).write)).plen ≠ (mkChain 2).plen := by
  decide

/-- C2 (witness): the round trip on the concrete three-entry trained chain;
the reread map and prefix length are identical and the cursor is the last
written entry's prefix. -/
theorem C2_witness :
    ((mkChain 2).read (((mkChain 2).addList
        ["the", "cat", "sat", "the", "cat", "ran"]).write)).map =
      ((mkChain 2).addList ["the", "cat", "sat", "the", "cat", "ran"]).map ∧
    ((mkChain 2).read (((mkChain 2).addList
        ["the", "cat", "sat", "the", "cat", "ran"]).write)).plen =
      ((mkChain 2).addList ["the", "cat", "sat", "the", "cat", "ran"]).plen ∧
    ((mkChain 2).read (((mkChain 2).addList
        ["the", "cat", "sat", "the", "cat", "ran"]).write)).cursor =
      ["the", "cat"] := by
  have h := C2_thm ((mkChain 2).addList ["the", "cat", "sat", "the", "cat", "ran"])
    (mkChain 2) (by decide) (by decide) (by decide) (by decide) (by decide)
  exact ⟨h.1, h.2.1, h.2.2.trans (by decide)⟩

end Markov
